import Mathlib

/-!
Verification of the simsim event-detection engine specification.

The repository ships the specification of a small complex-event-processing
(CEP) core — sliding-count, threshold/shock and sequence rule evaluators, an
append-only event log with a backfill query, and per-key input ordering —
together with the Supabase schema (`supabase/migrations/20250810204112_init-pine.sql`)
and the Next.js API route `pages/api/add-stock.ts`.  The rule evaluators and
the event-log query live in `apps/event_dashboard/server.py`, which is not
part of the source tree here; those parts are modelled from the specification
text (each such definition is marked `Modelled from the spec:`).  The SQL
row-level-security policy and the add-stock HTTP handler are embedded
directly from their sources.
-/

/-- A sliding-count rule configuration (spec §4.1): fire when at least `n`
qualifying inputs fall within a trailing window of `t` seconds. -/
structure SlidingCountRule where
  n : Nat
  t : Nat
  deriving DecidableEq, Repr

/-- Per-(rule, key) state of a sliding-count rule: a FIFO queue of the
timestamps of qualifying inputs, oldest first, plus the end of the current
cooldown interval (no event is emitted at timestamps before it). -/
structure SCState where
  queue : List Nat
  cooldownUntil : Nat
  deriving DecidableEq, Repr

/-- Fresh state for a (rule, key) pair: empty queue, no cooldown pending. -/
def SCState.initial : SCState := ⟨[], 0⟩

/-- Modelled from the spec (§4.1, the algorithm of the Sliding-Count rule;
the implementing `apps/event_dashboard/server.py` is not in the tree):
on each qualifying input at timestamp `ts`, push `ts`, pop every timestamp
older than `ts - t` (the boundary `ts - t` itself is kept), and, unless the
cooldown from a previous firing is still running, emit one event when the
queue holds at least `n` timestamps; firing clears the queue and starts a
cooldown of `t / 2` seconds. -/
def scStep (r : SlidingCountRule) (s : SCState) (ts : Nat) : SCState × Bool :=
  let q := (s.queue ++ [ts]).filter (fun u => ts ≤ u + r.t)
  if ts < s.cooldownUntil then
    ({ queue := q, cooldownUntil := s.cooldownUntil }, false)
  else if r.n ≤ q.length then
    ({ queue := [], cooldownUntil := ts + r.t / 2 }, true)
  else
    ({ queue := q, cooldownUntil := s.cooldownUntil }, false)

/-- Run the sliding-count rule over a stream of qualifying input timestamps,
returning the final state and the number of emitted events. -/
def scRun (r : SlidingCountRule) (s : SCState) : List Nat → SCState × Nat
  | [] => (s, 0)
  | ts :: rest =>
    let step := scStep r s ts
    let rec' := scRun r step.1 rest
    (rec'.1, (if step.2 then 1 else 0) + rec'.2)

theorem scRun_append (r : SlidingCountRule) (l₁ l₂ : List Nat) (s : SCState) :
    scRun r s (l₁ ++ l₂) =
      ((scRun r (scRun r s l₁).1 l₂).1,
        (scRun r s l₁).2 + (scRun r (scRun r s l₁).1 l₂).2) := by
  induction l₁ generalizing s with
  | nil => simp [scRun]
  | cons ts rest ih =>
    simp only [List.cons_append, scRun, List.append_eq, ih]
    cases (scStep r s ts).2 <;> simp [Nat.add_assoc]

/-- While fewer than `n` inputs have been seen and all inputs of the stream
lie within `t` of one another, the queue accumulates every timestamp and no
event is emitted. -/
theorem scRun_no_fire (r : SlidingCountRule) :
    ∀ (l q : List Nat) (c : Nat),
      (∀ a ∈ q ++ l, ∀ b ∈ l, b ≤ a + r.t) →
      (∀ b ∈ l, c ≤ b) →
      q.length + l.length < r.n →
      scRun r ⟨q, c⟩ l = (⟨q ++ l, c⟩, 0) := by
  intro l
  induction l with
  | nil => intro q c _ _ _; simp [scRun]
  | cons ts rest ih =>
    intro q c hwin hcool hlen
    have hts : ts ∈ ts :: rest := List.mem_cons_self ts rest
    have hkeep : (q ++ [ts]).filter (fun u => ts ≤ u + r.t) = q ++ [ts] := by
      apply List.filter_eq_self.mpr
      intro a ha
      have ha' : a ∈ q ++ ts :: rest := by
        rcases List.mem_append.mp ha with h | h
        · exact List.mem_append.mpr (Or.inl h)
        · simp only [List.mem_singleton] at h
          exact List.mem_append.mpr (Or.inr (h ▸ hts))
      exact decide_eq_true (hwin a ha' ts hts)
    have hnc : ¬ ts < c := by
      have := hcool ts hts
      omega
    have hnofire : ¬ r.n ≤ ((q ++ [ts]).filter (fun u => ts ≤ u + r.t)).length := by
      rw [hkeep]
      simp only [List.length_append, List.length_singleton]
      simp only [List.length_cons] at hlen
      omega
    have hstep : scStep r ⟨q, c⟩ ts = (⟨q ++ [ts], c⟩, false) := by
      simp only [scStep]
      rw [if_neg hnc, if_neg hnofire, hkeep]
    have hrec : scRun r ⟨q ++ [ts], c⟩ rest = (⟨(q ++ [ts]) ++ rest, c⟩, 0) := by
      apply ih
      · intro a ha b hb
        apply hwin a _ b (List.mem_cons_of_mem ts hb)
        rw [List.append_assoc] at ha
        simpa using ha
      · intro b hb
        exact hcool b (List.mem_cons_of_mem ts hb)
      · simp only [List.length_append, List.length_singleton]
        simp only [List.length_cons] at hlen
        omega
    simp only [scRun, hstep, hrec]
    simp

/-- **C1.** For every Sliding-Count rule with count threshold `n ≥ 1` and
window `t`, a time-ordered stream whose inputs all lie within `t` of one
another (equivalently, first-to-last spread at most `t`) emits exactly one
event when it has exactly `n` qualifying inputs, and never emits when it has
only `n - 1`; the comparison is `≥ n`, so a count of exactly `n` fires. -/
theorem sliding_count_threshold_semantics (r : SlidingCountRule) (l : List Nat)
    (hn : 1 ≤ r.n) (hsorted : l.Sorted (· ≤ ·))
    (hwin : ∀ a ∈ l, ∀ b ∈ l, b ≤ a + r.t) :
    (l.length = r.n → (scRun r SCState.initial l).2 = 1) ∧
    (l.length = r.n - 1 → (scRun r SCState.initial l).2 = 0) := by
  have _ := hsorted
  constructor
  · intro hlen
    have hne : l ≠ [] := by
      intro h
      rw [h] at hlen
      simp at hlen
      omega
    have hdec : l.dropLast ++ [l.getLast hne] = l := List.dropLast_append_getLast hne
    have hfirst : scRun r ⟨[], 0⟩ l.dropLast = (⟨[] ++ l.dropLast, 0⟩, 0) := by
      apply scRun_no_fire
      · intro a ha b hb
        simp only [List.nil_append] at ha
        exact hwin a ((List.dropLast_sublist l).subset ha) b
          ((List.dropLast_sublist l).subset hb)
      · intro b _
        exact Nat.zero_le b
      · simp only [List.length_nil, Nat.zero_add, List.length_dropLast, hlen]
        omega
    have hkeep : (l.dropLast ++ [l.getLast hne]).filter
        (fun u => l.getLast hne ≤ u + r.t) = l.dropLast ++ [l.getLast hne] := by
      apply List.filter_eq_self.mpr
      intro a ha
      rw [hdec] at ha
      exact decide_eq_true (hwin a ha (l.getLast hne) (List.getLast_mem hne))
    have hstep : scStep r ⟨l.dropLast, 0⟩ (l.getLast hne) =
        (⟨[], l.getLast hne + r.t / 2⟩, true) := by
      simp only [scStep, hkeep]
      rw [if_neg (Nat.not_lt_zero _), if_pos]
      rw [hdec]
      rw [hlen]
    rw [show SCState.initial = (⟨[], 0⟩ : SCState) from rfl, ← hdec, scRun_append,
      hfirst]
    simp only [List.nil_append, scRun, hstep]
    simp
  · intro hlen
    have h := scRun_no_fire r l [] 0
      (by
        intro a ha b hb
        simp only [List.nil_append] at ha
        exact hwin a ha b hb)
      (fun b _ => Nat.zero_le b)
      (by simp only [List.length_nil, Nat.zero_add, hlen]; omega)
    rw [show SCState.initial = (⟨[], 0⟩ : SCState) from rfl, h]

theorem sliding_count_threshold_semantics_witness :
    (scRun ⟨3, 120⟩ SCState.initial [0, 40, 90]).2 = 1 ∧
    (scRun ⟨3, 120⟩ SCState.initial [0, 40]).2 = 0 :=
  ⟨(sliding_count_threshold_semantics ⟨3, 120⟩ [0, 40, 90] (by decide) (by decide)
      (by decide)).1 (by decide),
   (sliding_count_threshold_semantics ⟨3, 120⟩ [0, 40] (by decide) (by decide)
      (by decide)).2 (by decide)⟩

/-- While the cooldown from a previous firing is still running, processing
any qualifying input earlier than the cooldown end emits nothing and leaves
the cooldown end unchanged. -/
theorem scRun_cooldown (r : SlidingCountRule) :
    ∀ (l : List Nat) (s : SCState),
      (∀ b ∈ l, b < s.cooldownUntil) →
      (scRun r s l).2 = 0 ∧ (scRun r s l).1.cooldownUntil = s.cooldownUntil := by
  intro l
  induction l with
  | nil => intro s _; simp [scRun]
  | cons ts rest ih =>
    intro s hl
    have hts : ts < s.cooldownUntil := hl ts (List.mem_cons_self ts rest)
    have hstep : scStep r s ts =
        (⟨(s.queue ++ [ts]).filter (fun u => ts ≤ u + r.t), s.cooldownUntil⟩,
          false) := by
      simp only [scStep]
      rw [if_pos hts]
    obtain ⟨h1, h2⟩ := ih
      ⟨(s.queue ++ [ts]).filter (fun u => ts ≤ u + r.t), s.cooldownUntil⟩
      (fun b hb => hl b (List.mem_cons_of_mem ts hb))
    simp only [scRun, hstep]
    exact ⟨by simpa using h1, by simpa using h2⟩

/-- **C4.** After a sliding-count rule fires at time `ts`, no further event
for that rule and key is emitted for inputs timestamped strictly before
`ts + t / 2`, even if the count condition still holds in that interval. -/
theorem sliding_count_cooldown_suppresses (r : SlidingCountRule)
    (s s' : SCState) (ts : Nat) (hfire : scStep r s ts = (s', true))
    (l : List Nat) (hl : ∀ b ∈ l, b < ts + r.t / 2) :
    (scRun r s' l).2 = 0 := by
  have hcool : s'.cooldownUntil = ts + r.t / 2 := by
    simp only [scStep] at hfire
    split at hfire
    · simp [Prod.ext_iff] at hfire
    · split at hfire
      · have h1 : ({ queue := [], cooldownUntil := ts + r.t / 2 } : SCState) = s' :=
          congrArg Prod.fst hfire
        rw [← h1]
      · simp [Prod.ext_iff] at hfire
  exact (scRun_cooldown r l s' (by rw [hcool]; exact hl)).1

theorem sliding_count_cooldown_suppresses_witness :
    (scRun ⟨3, 120⟩ ⟨[], 150⟩ [95]).2 = 0 :=
  sliding_count_cooldown_suppresses ⟨3, 120⟩ ⟨[0, 40], 0⟩ ⟨[], 150⟩ 90
    (by decide) [95] (by decide)

/-- A macroeconomic release record (spec §3): series id, timestamp, actual
value and consensus estimate; the estimate may be missing.  Values are exact
rationals. -/
structure MacroRelease where
  series : String
  ts : Nat
  actual : Rat
  estimate : Option Rat
  deriving DecidableEq, Repr

/-- A threshold/shock rule configuration (spec §4.2): the watched series and
the surprise threshold. -/
structure ShockRule where
  series : String
  threshold : Rat
  deriving DecidableEq, Repr

/-- Modelled from the spec (§4.2, the Threshold/Shock rule; the implementing
`apps/event_dashboard/server.py` is not in the tree): a stateless check per
release of the configured series — emit exactly when `|actual - estimate| ≥
threshold`; a release with a missing estimate is skipped (no emission, no
failure). -/
def shockStep (rule : ShockRule) (m : MacroRelease) : Bool :=
  if m.series = rule.series then
    match m.estimate with
    | none => false
    | some e => rule.threshold ≤ |m.actual - e|
  else false

/-- Process a stream of macro releases with a shock rule; since the rule is
stateless, the emitted events are exactly the qualifying releases, in order.
Being a total function, the run never fails, whatever records it meets. -/
def shockRun (rule : ShockRule) (ms : List MacroRelease) : List MacroRelease :=
  ms.filter (fun m => shockStep rule m)

/-- **C2.** For every threshold/shock rule and every release of its series
that carries an estimate, the rule fires exactly when `|surprise| ≥
threshold`; in particular a surprise exactly at the threshold fires, and a
surprise one unit below the threshold does not. -/
theorem shock_fires_iff_threshold (rule : ShockRule) (m : MacroRelease)
    (e : Rat) (hs : m.series = rule.series) (he : m.estimate = some e) :
    (shockStep rule m = true ↔ rule.threshold ≤ |m.actual - e|) ∧
    (|m.actual - e| = rule.threshold → shockStep rule m = true) ∧
    (|m.actual - e| = rule.threshold - 1 → shockStep rule m = false) := by
  have hstep : shockStep rule m = decide (rule.threshold ≤ |m.actual - e|) := by
    simp only [shockStep, hs, if_pos, he]
  refine ⟨?_, ?_, ?_⟩
  · rw [hstep]
    exact decide_eq_true_iff
  · intro hexact
    rw [hstep, hexact]
    exact decide_eq_true le_rfl
  · intro hbelow
    rw [hstep]
    apply decide_eq_false
    rw [hbelow]
    intro hcontra
    linarith

/-- **C8.** A release with a missing estimate is skipped: it emits no event,
the run does not fail (the run is a total function), and — the rule being
stateless — the remaining releases are processed exactly as if the skipped
record had never arrived. -/
theorem shock_missing_estimate_skipped (rule : ShockRule) (m : MacroRelease)
    (hm : m.estimate = none) (ms : List MacroRelease) :
    shockStep rule m = false ∧ shockRun rule (m :: ms) = shockRun rule ms := by
  have hstep : shockStep rule m = false := by
    simp only [shockStep, hm]
    split <;> rfl
  refine ⟨hstep, ?_⟩
  simp [shockRun, hstep]

theorem shock_missing_estimate_skipped_witness :
    shockStep ⟨"US:CPI", 3 / 10⟩ ⟨"US:CPI", 5, 39 / 10, none⟩ = false ∧
    shockRun ⟨"US:CPI", 3 / 10⟩
        [⟨"US:CPI", 5, 39 / 10, none⟩, ⟨"US:CPI", 9, 39 / 10, some (34 / 10)⟩] =
      shockRun ⟨"US:CPI", 3 / 10⟩ [⟨"US:CPI", 9, 39 / 10, some (34 / 10)⟩] :=
  shock_missing_estimate_skipped ⟨"US:CPI", 3 / 10⟩ ⟨"US:CPI", 5, 39 / 10, none⟩
    rfl [⟨"US:CPI", 9, 39 / 10, some (34 / 10)⟩]

theorem shock_fires_iff_threshold_witness :
    shockStep ⟨"US:CPI", 3 / 10⟩ ⟨"US:CPI", 9, 39 / 10, some (34 / 10)⟩ = true ∧
    shockStep ⟨"US:CPI", 3 / 10⟩ ⟨"US:CPI", 9, 35 / 10, some (34 / 10)⟩ = false := by
  constructor
  · exact (shock_fires_iff_threshold ⟨"US:CPI", 3 / 10⟩
      ⟨"US:CPI", 9, 39 / 10, some (34 / 10)⟩ (34 / 10) rfl rfl).1.mpr
      (le_abs.mpr (Or.inl (by norm_num)))
  · have h := (shock_fires_iff_threshold ⟨"US:CPI", 3 / 10⟩
      ⟨"US:CPI", 9, 35 / 10, some (34 / 10)⟩ (34 / 10) rfl rfl).1
    rcases hb : shockStep ⟨"US:CPI", 3 / 10⟩ ⟨"US:CPI", 9, 35 / 10, some (34 / 10)⟩ with _ | _
    · rfl
    · have := h.mp hb
      rw [show |(35 : Rat) / 10 - 34 / 10| = 1 / 10 by
        rw [abs_of_nonneg] <;> norm_num] at this
      norm_num at this

/-- A derived event, as consumed and produced by the sequence rule (spec
§4.3): the sequence rule runs over the engine's internal feed of derived
events, not over raw inputs. -/
structure DerivedEvent where
  id : Nat
  kind : String
  ts : Nat
  key : String
  deriving DecidableEq, Repr

/-- A sequence rule configuration (spec §4.3): the qualifying first and
second event types, the disqualifying "invalidate" type, and the time budget
for completing the sequence. -/
structure SequenceRule where
  firstKind : String
  secondKind : String
  invalidateKind : String
  budget : Nat
  deriving DecidableEq, Repr

/-- Per-key state of the sequence rule (spec §4.3): `idle`, or waiting for
the second step while remembering the first event's id and timestamp (the
deadline is `firstTs + budget`), or fired. -/
inductive SeqState where
  | idle : SeqState
  | waiting (firstId : Nat) (firstTs : Nat) : SeqState
  | fired (firstId : Nat) (secondId : Nat) : SeqState
  deriving DecidableEq, Repr

/-- Modelled from the spec (§4.3, the Sequence rule state machine; the
implementing `apps/event_dashboard/server.py` is not in the tree):
idle → waiting on a qualifying first event; waiting → idle on a
disqualifying event; a new qualifying first event restarts the window
(last-first-wins); a qualifying second event whose id differs from the
recorded first id fires when it arrives before the deadline, and resets to
idle when the deadline has elapsed; a second event with the same id as the
first (self-match) is rejected and changes nothing. -/
def seqStep (r : SequenceRule) (s : SeqState) (e : DerivedEvent) :
    SeqState × Bool :=
  match s with
  | .idle =>
    if e.kind = r.firstKind then (.waiting e.id e.ts, false) else (.idle, false)
  | .waiting aId aTs =>
    if e.kind = r.invalidateKind then (.idle, false)
    else if e.kind = r.firstKind then (.waiting e.id e.ts, false)
    else if e.kind = r.secondKind ∧ e.id ≠ aId then
      if e.ts < aTs + r.budget then (.fired aId e.id, true)
      else (.idle, false)
    else (.waiting aId aTs, false)
  | .fired aId bId => (.fired aId bId, false)

/-- Run the sequence rule over a stream of derived events for one key,
returning the final state and the number of emitted events. -/
def seqRun (r : SequenceRule) (s : SeqState) : List DerivedEvent → SeqState × Nat
  | [] => (s, 0)
  | e :: rest =>
    let step := seqStep r s e
    let rec' := seqRun r step.1 rest
    (rec'.1, (if step.2 then 1 else 0) + rec'.2)

/-- Events of a kind the rule does not watch leave a waiting state untouched
and emit nothing. -/
theorem seqRun_inert (r : SequenceRule) :
    ∀ (l : List DerivedEvent) (aId aTs : Nat),
      (∀ e ∈ l, e.kind ≠ r.invalidateKind ∧ e.kind ≠ r.firstKind ∧
        e.kind ≠ r.secondKind) →
      seqRun r (.waiting aId aTs) l = (.waiting aId aTs, 0) := by
  intro l
  induction l with
  | nil => intro aId aTs _; rfl
  | cons e rest ih =>
    intro aId aTs hl
    obtain ⟨h1, h2, h3⟩ := hl e (List.mem_cons_self e rest)
    have hstep : seqStep r (.waiting aId aTs) e = (.waiting aId aTs, false) := by
      simp only [seqStep]
      rw [if_neg h1, if_neg h2, if_neg (by simp [h3])]
    simp only [seqRun, hstep]
    rw [ih aId aTs (fun e he => hl e (List.mem_cons_of_mem _ he))]
    simp

theorem seqRun_append (r : SequenceRule) (l₁ l₂ : List DerivedEvent)
    (s : SeqState) :
    seqRun r s (l₁ ++ l₂) =
      ((seqRun r (seqRun r s l₁).1 l₂).1,
        (seqRun r s l₁).2 + (seqRun r (seqRun r s l₁).1 l₂).2) := by
  induction l₁ generalizing s with
  | nil => simp [seqRun]
  | cons e rest ih =>
    simp only [List.cons_append, seqRun, List.append_eq, ih]
    cases (seqStep r s e).2 <;> simp [Nat.add_assoc]

/-- **C3.** For every sequence rule: a qualifying first event `a` at `t0`
followed — with only unwatched events in between — by a qualifying second
event `b` (of the second kind only, with an id different from `a`'s) emits
exactly one event when `b` arrives strictly before `t0 + budget`; when `b`
instead arrives strictly after `t0 + budget`, nothing is emitted and the
per-key state returns to idle. -/
theorem sequence_budget_semantics (r : SequenceRule) (a b : DerivedEvent)
    (mid : List DerivedEvent)
    (hA : a.kind = r.firstKind)
    (hB : b.kind = r.secondKind)
    (hBinv : r.secondKind ≠ r.invalidateKind)
    (hBfst : r.secondKind ≠ r.firstKind)
    (hid : b.id ≠ a.id)
    (hmid : ∀ e ∈ mid, e.kind ≠ r.invalidateKind ∧ e.kind ≠ r.firstKind ∧
      e.kind ≠ r.secondKind) :
    (b.ts < a.ts + r.budget → (seqRun r .idle (a :: mid ++ [b])).2 = 1) ∧
    (a.ts + r.budget < b.ts → seqRun r .idle (a :: mid ++ [b]) = (.idle, 0)) := by
  have hstepA : seqStep r .idle a = (.waiting a.id a.ts, false) := by
    simp only [seqStep]
    rw [if_pos hA]
  have hinert : seqRun r (.waiting a.id a.ts) mid = (.waiting a.id a.ts, 0) :=
    seqRun_inert r mid a.id a.ts hmid
  have hguards : ∀ st : SeqState × Bool,
      (if b.ts < a.ts + r.budget then ((.fired a.id b.id : SeqState), true)
        else ((.idle : SeqState), false)) = st →
      seqStep r (.waiting a.id a.ts) b = st := by
    intro st hst
    simp only [seqStep]
    rw [if_neg (hB ▸ hBinv), if_neg (hB ▸ hBfst), if_pos ⟨hB, hid⟩, hst]
  constructor
  · intro hin
    have hstepB : seqStep r (.waiting a.id a.ts) b = (.fired a.id b.id, true) :=
      hguards _ (if_pos hin)
    have hcons : a :: mid ++ [b] = a :: (mid ++ [b]) := rfl
    rw [hcons]
    simp only [seqRun, hstepA, seqRun_append, hinert]
    simp [seqRun, hstepB]
  · intro hout
    have hstepB : seqStep r (.waiting a.id a.ts) b = (.idle, false) :=
      hguards _ (if_neg (by omega))
    have hcons : a :: mid ++ [b] = a :: (mid ++ [b]) := rfl
    rw [hcons]
    simp only [seqRun, hstepA, seqRun_append, hinert]
    simp [seqRun, hstepB]

theorem sequence_budget_semantics_witness :
    (seqRun ⟨"MacroShock", "Breakout", "Invalidate", 900⟩ .idle
      [⟨1, "MacroShock", 0, "SPY"⟩, ⟨2, "Breakout", 600, "SPY"⟩]).2 = 1 ∧
    seqRun ⟨"MacroShock", "Breakout", "Invalidate", 900⟩ .idle
      [⟨1, "MacroShock", 0, "SPY"⟩, ⟨3, "Breakout", 1000, "SPY"⟩] = (.idle, 0) :=
  ⟨(sequence_budget_semantics ⟨"MacroShock", "Breakout", "Invalidate", 900⟩
      ⟨1, "MacroShock", 0, "SPY"⟩ ⟨2, "Breakout", 600, "SPY"⟩ [] rfl rfl
      (by decide) (by decide) (by decide) (by intro e he; cases he)).1 (by decide),
   (sequence_budget_semantics ⟨"MacroShock", "Breakout", "Invalidate", 900⟩
      ⟨1, "MacroShock", 0, "SPY"⟩ ⟨3, "Breakout", 1000, "SPY"⟩ [] rfl rfl
      (by decide) (by decide) (by decide) (by intro e he; cases he)).2 (by decide)⟩

/-- Per-key engine state (spec §5, §7): the last processed timestamp for the
key (none before the first input), the running count of data-quality errors,
and the rule state fed by accepted inputs (represented by a sliding-count
rule state). -/
structure EngineState where
  lastTs : Option Nat
  dqErrors : Nat
  rule : SCState
  deriving DecidableEq, Repr

/-- Engine state before the first input of a key. -/
def EngineState.start : EngineState := ⟨none, 0, SCState.initial⟩

/-- Modelled from the spec (§7 "Out-of-order input"; the implementing
`apps/event_dashboard/server.py` is not in the tree): an input whose
timestamp is strictly older than the last processed timestamp for its key is
rejected and counted as a data-quality error — it is never reordered into
the stream and the rule state is not touched; any other input is processed
by the rules and becomes the new last processed timestamp. -/
def engineStep (r : SlidingCountRule) (s : EngineState) (ts : Nat) :
    EngineState × Bool :=
  match s.lastTs with
  | some last =>
    if ts < last then ({ s with dqErrors := s.dqErrors + 1 }, false)
    else ({ lastTs := some ts, dqErrors := s.dqErrors,
            rule := (scStep r s.rule ts).1 }, true)
  | none =>
    ({ lastTs := some ts, dqErrors := s.dqErrors,
       rule := (scStep r s.rule ts).1 }, true)

/-- Run the per-key engine over an arrival-ordered list of input timestamps,
returning the final state together with the accepted (processed) timestamps
in processing order. -/
def engineRun (r : SlidingCountRule) (s : EngineState) :
    List Nat → EngineState × List Nat
  | [] => (s, [])
  | ts :: rest =>
    let step := engineStep r s ts
    let rec' := engineRun r step.1 rest
    (rec'.1, (if step.2 then [ts] else []) ++ rec'.2)

/-- Accepted timestamps are never older than the pending last-processed
timestamp, and they are processed in non-decreasing order. -/
theorem engineRun_accepted_monotone (r : SlidingCountRule) :
    ∀ (l : List Nat) (s : EngineState),
      (engineRun r s l).2.Chain' (· ≤ ·) ∧
      (∀ u ∈ (engineRun r s l).2, ∀ last, s.lastTs = some last → last ≤ u) := by
  intro l
  induction l with
  | nil => intro s; simp [engineRun]
  | cons ts rest ih =>
    intro s
    rcases hlast : s.lastTs with _ | last
    · have hstep : engineStep r s ts =
          ({ lastTs := some ts, dqErrors := s.dqErrors,
             rule := (scStep r s.rule ts).1 }, true) := by
        simp only [engineStep, hlast]
      obtain ⟨ihc, ihb⟩ := ih
        { lastTs := some ts, dqErrors := s.dqErrors, rule := (scStep r s.rule ts).1 }
      refine ⟨?_, ?_⟩
      · simp only [engineRun, hstep, if_pos, List.singleton_append]
        rw [List.chain'_cons']
        exact ⟨fun y hy => ihb y (List.mem_of_mem_head? hy) ts rfl, ihc⟩
      · intro u hu last hl
        exact Option.noConfusion hl
    · by_cases hlt : ts < last
      · have hstep : engineStep r s ts =
            ({ s with dqErrors := s.dqErrors + 1 }, false) := by
          simp only [engineStep, hlast]
          rw [if_pos hlt]
        obtain ⟨ihc, ihb⟩ := ih { s with dqErrors := s.dqErrors + 1 }
        refine ⟨?_, ?_⟩
        · simpa only [engineRun, hstep, if_neg Bool.false_ne_true,
            List.nil_append] using ihc
        · intro u hu l0 hl0
          injection hl0 with h0
          subst h0
          simp only [engineRun, hstep] at hu
          simp only [Bool.false_eq_true, if_false, List.nil_append] at hu
          exact ihb u hu last hlast
      · have hstep : engineStep r s ts =
            ({ lastTs := some ts, dqErrors := s.dqErrors,
               rule := (scStep r s.rule ts).1 }, true) := by
          simp only [engineStep, hlast]
          rw [if_neg hlt]
        obtain ⟨ihc, ihb⟩ := ih
          { lastTs := some ts, dqErrors := s.dqErrors,
            rule := (scStep r s.rule ts).1 }
        refine ⟨?_, ?_⟩
        · simp only [engineRun, hstep, if_pos, List.singleton_append]
          rw [List.chain'_cons']
          exact ⟨fun y hy => ihb y (List.mem_of_mem_head? hy) ts rfl, ihc⟩
        · intro u hu l0 hl0
          injection hl0 with h0
          subst h0
          simp only [engineRun, hstep] at hu
          simp only [if_pos, List.singleton_append] at hu
          rcases List.mem_cons.mp hu with h | h
          · omega
          · have := ihb u h ts rfl
            omega

/-- **C7.** An input strictly older than the last processed timestamp for
its key is rejected: the data-quality error count is incremented and nothing
else of the state — in particular no rule state — changes; consequently the
timestamps actually processed for a key always form a non-decreasing
sequence. -/
theorem out_of_order_input_rejected (r : SlidingCountRule) :
    (∀ (s : EngineState) (last ts : Nat), s.lastTs = some last → ts < last →
      engineStep r s ts = ({ s with dqErrors := s.dqErrors + 1 }, false)) ∧
    (∀ l : List Nat, (engineRun r EngineState.start l).2.Chain' (· ≤ ·)) := by
  constructor
  · intro s last ts hlast hlt
    simp only [engineStep, hlast]
    rw [if_pos hlt]
  · intro l
    exact (engineRun_accepted_monotone r l EngineState.start).1

theorem out_of_order_input_rejected_witness :
    engineStep ⟨3, 120⟩ ⟨some 100, 0, SCState.initial⟩ 99 =
      (⟨some 100, 1, SCState.initial⟩, false) ∧
    (engineRun ⟨3, 120⟩ EngineState.start [10, 50, 20, 60]).2.Chain' (· ≤ ·) :=
  ⟨(out_of_order_input_rejected ⟨3, 120⟩).1 ⟨some 100, 0, SCState.initial⟩ 100 99
      rfl (by decide),
   (out_of_order_input_rejected ⟨3, 120⟩).2 [10, 50, 20, 60]⟩

/-- An event as stored in the event log.  The schema of the
`historical_events` table (init-pine.sql, lines 70–79) carries an id, an
event type, a timestamp and a symbol; here the id is the monotonically
assigned log identifier of spec §3/§4.4. -/
structure LoggedEvent where
  id : Nat
  kind : String
  ts : Nat
  key : String
  deriving DecidableEq, Repr

/-- The append-only event log (spec §4.4): events in insertion order plus
the next identifier to assign. -/
structure EventLog where
  events : List LoggedEvent
  nextId : Nat
  deriving DecidableEq, Repr

/-- The empty log. -/
def EventLog.empty : EventLog := ⟨[], 0⟩

/-- Modelled from the spec (§4.4 `append(Event) -> id`, the only write path;
the implementing `apps/event_dashboard/server.py` is not in the tree): the
event is appended with a monotonically assigned identifier, which is
returned. -/
def EventLog.append (log : EventLog) (kind : String) (ts : Nat)
    (key : String) : EventLog × Nat :=
  (⟨log.events ++ [⟨log.nextId, kind, ts, key⟩], log.nextId + 1⟩, log.nextId)

/-- Append each (kind, timestamp, key) record of the list, in order. -/
def EventLog.appendAll (log : EventLog) :
    List (String × Nat × String) → EventLog
  | [] => log
  | r :: rest => EventLog.appendAll (log.append r.1 r.2.1 r.2.2).1 rest

/-- The log built by appending the given records to the empty log. -/
def EventLog.fromRecords (rs : List (String × Nat × String)) : EventLog :=
  EventLog.appendAll EventLog.empty rs

/-- Whether a stored event satisfies a backfill query: same key, timestamp
at least `since`, and, when a type filter is supplied, a type in it. -/
def matchesQuery (key : String) (since : Nat) (kinds : Option (List String))
    (e : LoggedEvent) : Bool :=
  decide (e.key = key) && decide (since ≤ e.ts) &&
    (match kinds with
     | none => true
     | some ks => ks.contains e.kind)

/-- The delivery order of queried events: by timestamp, ties by assigned
id. -/
def eventOrder (a b : LoggedEvent) : Prop :=
  a.ts < b.ts ∨ (a.ts = b.ts ∧ a.id ≤ b.id)

instance : DecidableRel eventOrder := fun a b => by
  unfold eventOrder
  exact inferInstance

instance : IsTotal LoggedEvent eventOrder := by
  constructor
  intro a b
  unfold eventOrder
  omega

instance : IsTrans LoggedEvent eventOrder := by
  constructor
  intro a b c
  unfold eventOrder
  omega

/-- Modelled from the spec (§4.4 `query(key, since_timestamp, [types])`; the
implementing `apps/event_dashboard/server.py` is not in the tree): a
non-mutating read returning the matching events ordered by timestamp with
ties broken by assigned id; the log is returned unchanged. -/
def EventLog.query (log : EventLog) (key : String) (since : Nat)
    (kinds : Option (List String)) : List LoggedEvent × EventLog :=
  (List.insertionSort eventOrder (log.events.filter (matchesQuery key since kinds)),
    log)

/-- Appending preserves both log invariants: ids of stored events stay below
`nextId`, and stored ids strictly increase in insertion order. -/
theorem appendAll_id_invariants :
    ∀ (rs : List (String × Nat × String)) (log : EventLog),
      (∀ e ∈ log.events, e.id < log.nextId) →
      log.events.Pairwise (fun a b => a.id < b.id) →
      (EventLog.appendAll log rs).events.Pairwise (fun a b => a.id < b.id) := by
  intro rs
  induction rs with
  | nil => intro log _ hp; exact hp
  | cons r rest ih =>
    intro log hbound hp
    apply ih
    · intro e he
      simp only [EventLog.append] at he
      rcases List.mem_append.mp he with h | h
      · have := hbound e h
        simp only [EventLog.append]
        omega
      · simp only [List.mem_singleton] at h
        subst h
        simp [EventLog.append]
    · simp only [EventLog.append]
      rw [List.pairwise_append]
      refine ⟨hp, List.pairwise_singleton _ _, ?_⟩
      intro a ha b hb
      simp only [List.mem_singleton] at hb
      subst hb
      exact hbound a ha

/-- **C5.** For every backfill query over a log built by appends, the
returned events are in non-decreasing timestamp order with ties in assigned
id order, and — ids being assigned monotonically by `append` — id order on
stored events coincides with insertion order. -/
theorem event_log_query_ordered (rs : List (String × Nat × String))
    (key : String) (since : Nat) (kinds : Option (List String)) :
    ((EventLog.fromRecords rs).query key since kinds).1.Pairwise
      (fun a b => a.ts ≤ b.ts ∧ (a.ts = b.ts → a.id ≤ b.id)) ∧
    (EventLog.fromRecords rs).events.Pairwise (fun a b => a.id < b.id) := by
  constructor
  · have hs := List.sorted_insertionSort eventOrder
      ((EventLog.fromRecords rs).events.filter (matchesQuery key since kinds))
    refine List.Pairwise.imp ?_ hs
    intro a b hab
    unfold eventOrder at hab
    omega
  · exact appendAll_id_invariants rs EventLog.empty
      (by intro e he; cases he) List.Pairwise.nil

/-- **C6.** A backfill query does not change the log, and repeating the same
query on the unchanged log returns the identical ordered result; in this
pure model both facts hold definitionally, the query being a non-mutating
function of the log and its parameters. -/
theorem event_log_query_idempotent (log : EventLog) (key : String)
    (since : Nat) (kinds : Option (List String)) :
    (log.query key since kinds).2 = log ∧
    ((log.query key since kinds).2.query key since kinds).1 =
      (log.query key since kinds).1 :=
  ⟨rfl, rfl⟩

/-- An HTTP request as seen by the add-stock API route
(`pages/api/add-stock.ts`): the method and the optional `ticker` and
`action` fields of the JSON body. -/
structure ApiRequest where
  method : String
  ticker : Option String
  action : Option String
  deriving DecidableEq, Repr

/-- Outcome of the add-stock route: either an immediate response with the
given status, or spawning the Python script with the given arguments (the
script itself then decides between the 200 and 500 responses). -/
inductive ApiOutcome where
  | respond (status : Nat) : ApiOutcome
  | runScript (args : List String) : ApiOutcome
  deriving DecidableEq, Repr

/-- JavaScript truthiness of an optional body string: absent (`undefined`)
and the empty string are falsy. -/
def truthy : Option String → Bool
  | none => false
  | some s => !(s == "")

/-- The decision logic of `handler` in `pages/api/add-stock.ts`: reject
non-POST methods with 405, missing (falsy) `ticker` or `action` with 400,
an `action` other than "add"/"remove" with 400, and otherwise spawn
`python3 add_stock_service.py <action> <TICKER>`. -/
def addStockHandler (req : ApiRequest) : ApiOutcome :=
  if req.method ≠ "POST" then .respond 405
  else if !(truthy req.ticker) || !(truthy req.action) then .respond 400
  else if !(["add", "remove"].contains (req.action.getD "")) then .respond 400
  else .runScript [req.action.getD "", (req.ticker.getD "").toUpper]

/-- **C9.** The add-stock route responds 405 to non-POST requests without
spawning the Python process; with POST it responds 400 when `ticker` or
`action` is absent, and 400 when `action` is neither "add" nor "remove";
the Python script is spawned only when all three checks pass. -/
theorem add_stock_route_checks (req : ApiRequest) :
    (req.method ≠ "POST" → addStockHandler req = .respond 405) ∧
    (req.method = "POST" → req.ticker = none ∨ req.action = none →
      addStockHandler req = .respond 400) ∧
    (req.method = "POST" → ∀ a, req.action = some a →
      a ∉ (["add", "remove"] : List String) →
      addStockHandler req = .respond 400) ∧
    (∀ args, addStockHandler req = .runScript args →
      req.method = "POST" ∧ truthy req.ticker = true ∧
      ∃ a, req.action = some a ∧ (a = "add" ∨ a = "remove")) := by
  refine ⟨?_, ?_, ?_, ?_⟩
  · intro hm
    simp only [addStockHandler]
    rw [if_pos hm]
  · intro hm habs
    simp only [addStockHandler]
    rw [if_neg (by simp [hm])]
    rcases habs with h | h <;>
      rw [if_pos (by simp [truthy, h])]
  · intro hm a ha hnot
    simp only [addStockHandler]
    rw [if_neg (by simp [hm])]
    by_cases hfalsy : !(truthy req.ticker) || !(truthy req.action)
    · rw [if_pos hfalsy]
    · rw [if_neg hfalsy]
      rw [if_pos]
      simp only [ha, Option.getD_some]
      simpa using hnot
  · intro args hrun
    simp only [addStockHandler] at hrun
    by_cases hm : req.method ≠ "POST"
    · rw [if_pos hm] at hrun
      cases hrun
    · rw [if_neg hm] at hrun
      push_neg at hm
      by_cases hfalsy : !(truthy req.ticker) || !(truthy req.action)
      · rw [if_pos hfalsy] at hrun
        cases hrun
      · rw [if_neg hfalsy] at hrun
        by_cases hact : !(["add", "remove"].contains (req.action.getD ""))
        · rw [if_pos hact] at hrun
          cases hrun
        · rw [if_neg hact] at hrun
          refine ⟨hm, ?_, ?_⟩
          · simp only [Bool.or_eq_true, Bool.not_eq_true'] at hfalsy
            push_neg at hfalsy
            simpa using hfalsy.1
          · rcases hta : req.action with _ | a
            · rw [hta] at hfalsy
              simp [truthy] at hfalsy
            · refine ⟨a, rfl, ?_⟩
              rw [hta] at hact
              simp only [Option.getD_some] at hact
              simp at hact
              by_cases h : a = "add"
              · exact Or.inl h
              · exact Or.inr (hact h)

theorem add_stock_route_checks_witness :
    addStockHandler ⟨"GET", some "AAPL", some "add"⟩ = .respond 405 ∧
    addStockHandler ⟨"POST", some "AAPL", none⟩ = .respond 400 ∧
    addStockHandler ⟨"POST", some "AAPL", some "hold"⟩ = .respond 400 :=
  ⟨(add_stock_route_checks ⟨"GET", some "AAPL", some "add"⟩).1 (by decide),
   (add_stock_route_checks ⟨"POST", some "AAPL", none⟩).2.1 rfl (Or.inr rfl),
   (add_stock_route_checks ⟨"POST", some "AAPL", some "hold"⟩).2.2.1 rfl "hold"
     rfl (by decide)⟩

/-- A row of the `user_sessions` table (init-pine.sql, lines 46–56): the
session id (primary key) and the owning user's id; uuids are represented by
naturals. -/
structure SessionRow where
  id : Nat
  userId : Nat
  deriving DecidableEq, Repr

/-- A row of the `historical_events` table (init-pine.sql, lines 70–79): the
event id, the session it belongs to, its symbol and timestamp. -/
structure EventRow where
  id : Nat
  sessionId : Nat
  symbol : String
  ts : Nat
  deriving DecidableEq, Repr

/-- The two tables relevant to the events policy. -/
structure EventsDb where
  sessions : List SessionRow
  events : List EventRow
  deriving DecidableEq, Repr

/-- The predicate of the RLS policy "Users can access events from their
sessions" (init-pine.sql, lines 149–156): the row passes for `uid` exactly
when a `user_sessions` row exists whose id is the event's `session_id` and
whose `user_id` is `uid`. -/
def eventPolicy (db : EventsDb) (uid : Nat) (e : EventRow) : Bool :=
  db.sessions.any (fun s => decide (s.id = e.sessionId) && decide (s.userId = uid))

/-- With row-level security enabled on `historical_events` (init-pine.sql,
line 120) and the policy applying to all commands (`FOR ALL`), the rows a
user can read or write are exactly those passing the policy predicate. -/
def visibleEvents (db : EventsDb) (uid : Nat) : List EventRow :=
  db.events.filter (eventPolicy db uid)

/-- Two `user_sessions` rows with the same primary key are the same row. -/
theorem session_id_inj :
    ∀ (l : List SessionRow), l.Pairwise (fun a b => a.id ≠ b.id) →
      ∀ a ∈ l, ∀ b ∈ l, a.id = b.id → a = b := by
  intro l
  induction l with
  | nil => intro _ a ha; cases ha
  | cons s rest ih =>
    intro hpk
    rw [List.pairwise_cons] at hpk
    intro a ha b hb heq
    rcases List.mem_cons.mp ha with rfl | ha2 <;>
      rcases List.mem_cons.mp hb with rfl | hb2
    · rfl
    · exact absurd heq (hpk.1 b hb2)
    · exact absurd heq.symm (hpk.1 a ha2)
    · exact ih hpk.2 a ha2 b hb2 heq

/-- **C10.** Under the `historical_events` policy, a row is accessible to a
user only through a session that user owns; hence, session ids being primary
keys, an event belonging to another user's session is never visible: two
distinct users can never see each other's events. -/
theorem rls_event_isolation (db : EventsDb) (u1 u2 : Nat) (hne : u1 ≠ u2)
    (hpk : db.sessions.Pairwise (fun a b => a.id ≠ b.id)) :
    (∀ e ∈ visibleEvents db u1,
      ∃ s ∈ db.sessions, s.id = e.sessionId ∧ s.userId = u1) ∧
    (∀ e ∈ db.events,
      (∃ s ∈ db.sessions, s.id = e.sessionId ∧ s.userId = u2) →
      e ∉ visibleEvents db u1) := by
  have hvis : ∀ e, e ∈ visibleEvents db u1 →
      ∃ s ∈ db.sessions, s.id = e.sessionId ∧ s.userId = u1 := by
    intro e he
    have hmem := List.of_mem_filter he
    simp only [eventPolicy, List.any_eq_true, Bool.and_eq_true,
      decide_eq_true_eq] at hmem
    obtain ⟨s, hs, hcond⟩ := hmem
    exact ⟨s, hs, hcond.1, hcond.2⟩
  refine ⟨hvis, ?_⟩
  intro e _ hown hmem
  obtain ⟨s2, hs2, hsid2, huid2⟩ := hown
  obtain ⟨s1, hs1, hsid1, huid1⟩ := hvis e hmem
  have : s1 = s2 :=
    session_id_inj db.sessions hpk s1 hs1 s2 hs2 (by rw [hsid1, hsid2])
  apply hne
  rw [← huid1, this, huid2]

theorem rls_event_isolation_witness :
    (⟨1, 2, "XYZ", 6⟩ : EventRow) ∉
      visibleEvents ⟨[⟨1, 10⟩, ⟨2, 20⟩], [⟨0, 1, "XYZ", 5⟩, ⟨1, 2, "XYZ", 6⟩]⟩ 10 :=
  (rls_event_isolation ⟨[⟨1, 10⟩, ⟨2, 20⟩], [⟨0, 1, "XYZ", 5⟩, ⟨1, 2, "XYZ", 6⟩]⟩
      10 20 (by decide) (by decide)).2 ⟨1, 2, "XYZ", 6⟩ (by decide)
    ⟨⟨2, 20⟩, by decide, rfl, rfl⟩
